import Mathlib

/-!
Shallow embedding of the go-stream repository's session lifecycle manager
(`torrent.go`), subtitle converter (`subtitle.go`) and the subtitle
upload/download handler cores (`handlers.go`), together with proofs of the
specification claims.

Strings from Go are modelled as `List Char` (paths, names) and raw byte
content as `List Nat` (one `Nat` per byte).  Go standard-library helpers
(`strings.HasPrefix`, `strings.TrimSuffix`, `path/filepath.Ext/Base/Dir/Clean`,
`bufio.ScanLines`) are embedded at the byte/char level following their
documented Unix semantics, since the repository only ever feeds them
slash-separated paths and byte slices.
-/

/-- A sequence of raw bytes, one `Nat` (0..255) per byte. -/
abbrev Bytes := List Nat

/-- ASCII bytes of a string literal (used only for ASCII fixtures). -/
def bstr (s : String) : Bytes := s.toList.map Char.toNat

/-- Models `strings.HasPrefix s pre` (and byte-level leading-segment tests):
`startsWithL s pre = true` iff `pre` is a leading segment of `s`. -/
def startsWithL {α : Type} [DecidableEq α] : List α → List α → Bool
  | _, [] => true
  | [], _ :: _ => false
  | a :: s, b :: p => a = b && startsWithL s p

/-- Separator predicate for Unix paths (`os.IsPathSeparator`). -/
def isSep (c : Char) : Bool := c = '/'

/-- Helper for `goExt`: walks the reversed path, collecting the suffix up to
the rightmost dot of the last path element; empty if a separator is reached
first. -/
def goExtAux : List Char → List Char → List Char
  | [], _ => []
  | c :: rest, acc =>
    if isSep c then []
    else if c = '.' then c :: acc
    else goExtAux rest (c :: acc)

/-- Models `filepath.Ext`: the suffix beginning at the final dot in the final
slash-separated element of the path; empty if there is no dot. -/
def goExt (p : List Char) : List Char := goExtAux p.reverse []

/-- Models `stripExt` from torrent.go (`strings.TrimSuffix(name, filepath.Ext(name))`). -/
def stripExt (name : List Char) : List Char :=
  let e := goExt name
  if startsWithL name.reverse e.reverse then name.take (name.length - e.length)
  else name

/-- Models `filepath.Base` (Unix): last element of the path after removing
trailing slashes; `"."` for the empty path; `"/"` if the path is all slashes. -/
def goBase (p : List Char) : List Char :=
  if p = [] then ['.']
  else
    let q := p.reverse.dropWhile isSep
    if q = [] then ['/']
    else (q.takeWhile (fun c => ¬ isSep c)).reverse

/-- Backtracking step of `filepath.Clean` for a `..` element: the buffer of
kept characters is held in reverse; `x` is the character just removed and
`dotdot` the low-water mark below which no character may be removed. -/
def popLoop (dotdot : Nat) : Char → List Char → List Char
  | x, rest =>
    if dotdot < rest.length && !(isSep x) then
      match rest with
      | [] => []
      | x' :: rest' => popLoop dotdot x' rest'
    else rest

/-- Core loop of `filepath.Clean` (Unix), with the output buffer kept in
reverse.  `fuel` bounds the recursion; every iteration consumes at least one
character of `remaining`, so `fuel = remaining.length` suffices. -/
def cleanAux (rooted : Bool) : Nat → List Char → List Char → Nat → List Char
  | 0, _, out, _ => out
  | _ + 1, [], out, _ => out
  | fuel + 1, c :: rest, out, dotdot =>
    if isSep c then cleanAux rooted fuel rest out dotdot
    else if c = '.' && (rest = [] || isSep (rest.headD ' ')) then
      cleanAux rooted fuel rest out dotdot
    else if c = '.' && startsWithL rest ['.'] &&
            (rest.drop 1 = [] || isSep ((rest.drop 1).headD ' ')) then
      -- ".." element
      let rest2 := rest.drop 1
      if dotdot < out.length then
        match out with
        | [] => cleanAux rooted fuel rest2 [] dotdot
        | x :: out' => cleanAux rooted fuel rest2 (popLoop dotdot x out') dotdot
      else if !rooted then
        let out1 := if out = [] then out else '/' :: out
        cleanAux rooted fuel rest2 ('.' :: '.' :: out1) ('.' :: '.' :: out1).length
      else cleanAux rooted fuel rest2 out dotdot
    else
      -- real path element: push a separator if needed, then copy the element
      let out1 := if (rooted && out.length ≠ 1) || (!rooted && out.length ≠ 0)
                  then '/' :: out else out
      let elem := (c :: rest).takeWhile (fun d => ¬ isSep d)
      let rest' := (c :: rest).dropWhile (fun d => ¬ isSep d)
      cleanAux rooted fuel rest' (elem.reverse ++ out1) dotdot

/-- Models `filepath.Clean` (Unix). -/
def goClean (p : List Char) : List Char :=
  if p = [] then ['.']
  else
    let rooted := isSep (p.headD ' ')
    let out :=
      if rooted then cleanAux rooted p.length (p.drop 1) ['/'] 1
      else cleanAux rooted p.length p [] 0
    if out = [] then ['.'] else out.reverse

/-- Models `filepath.Dir` (Unix): everything up to and including the final
separator, cleaned; `"."` when the path holds no separator. -/
def goDir (p : List Char) : List Char :=
  goClean ((p.reverse.dropWhile (fun c => ¬ isSep c)).reverse)

/-- ASCII lower-casing of one character (the extension sets compared against
are all ASCII, so this captures `strings.ToLower` on the relevant inputs). -/
def asciiLower (c : Char) : Char :=
  if 'A' ≤ c ∧ c ≤ 'Z' then Char.ofNat (c.toNat + 32) else c

/-- Models `strings.ToLower` on ASCII strings. -/
def lowerStr (l : List Char) : List Char := l.map asciiLower

/-- The UTF-8 byte-order mark, `"\xEF\xBB\xBF"`. -/
def bomBytes : Bytes := [0xEF, 0xBB, 0xBF]

/-- Models `bytes.TrimPrefix(srt, BOM)`: removes one leading byte-order mark. -/
def dropBom (bs : Bytes) : Bytes :=
  if startsWithL bs bomBytes then bs.drop bomBytes.length else bs

/-- Models `dropCR` inside `bufio.ScanLines`: removes one trailing `'\r'`. -/
def dropCR (l : Bytes) : Bytes :=
  if l.getLast? = some 13 then l.dropLast else l

/-- Line splitter of `bufio.Scanner` with `bufio.ScanLines`: tokens are the
segments between `'\n'` bytes, each with a trailing `'\r'` removed; a final
segment without a newline is still produced, a trailing newline is not
followed by an empty token.  `acc` holds the current segment reversed. -/
def splitLinesAux : Bytes → Bytes → List Bytes
  | [], acc => [dropCR acc.reverse]
  | 10 :: rest, acc =>
    dropCR acc.reverse :: (if rest = [] then [] else splitLinesAux rest [])
  | b :: rest, acc => splitLinesAux rest (b :: acc)

/-- All tokens `bufio.Scanner`/`ScanLines` yields for the given input
(empty input yields no tokens). -/
def goLines (bs : Bytes) : List Bytes :=
  if bs = [] then [] else splitLinesAux bs []

/-- ASCII whitespace set of `strings.TrimSpace` (the byte range used here). -/
def isSpaceB (b : Nat) : Bool :=
  b = 32 || b = 9 || b = 10 || b = 13 || b = 11 || b = 12

/-- Models `strings.TrimSpace` at the byte level. -/
def trimSpaceB (l : Bytes) : Bytes :=
  ((l.dropWhile isSpaceB).reverse.dropWhile isSpaceB).reverse

/-- Models `isDigitsOnly` from subtitle.go: nonempty and all bytes in '0'..'9'. -/
def isDigitsOnly (l : Bytes) : Bool :=
  !(l = []) && l.all (fun b => 48 ≤ b && b ≤ 57)

/-- Models `strings.Contains(line, "-->")` at the byte level
(`"-->"` is bytes 45, 45, 62). -/
def hasArrow : Bytes → Bool
  | 45 :: 45 :: 62 :: _ => true
  | _ :: rest => hasArrow rest
  | [] => false

/-- Models `strings.ReplaceAll(line, ",", ".")` at the byte level. -/
def commaToDot (l : Bytes) : Bytes :=
  l.map (fun b => if b = 44 then 46 else b)

/-- The scan loop of `ConvertSRTtoVTT`: `afterBlank` tracks whether the
previous emitted-or-skipped line was blank (true initially); a digits-only
line in that state is dropped, timestamp lines get commas replaced by dots,
every other line is emitted verbatim, each with a trailing newline. -/
def convLines : Bool → List Bytes → Bytes
  | _, [] => []
  | afterBlank, l :: rest =>
    let trimmed := trimSpaceB l
    if afterBlank && isDigitsOnly trimmed then convLines false rest
    else
      let line := if hasArrow l then commaToDot l else l
      line ++ 10 :: convLines (trimmed = []) rest

/-- Models `ConvertSRTtoVTT` from subtitle.go. -/
def ConvertSRTtoVTT (srt : Bytes) : Bytes :=
  bstr "WEBVTT\n\n" ++ convLines true (goLines (dropBom srt))


/-- One entry of a torrent's file list, as classified by `classifyFiles`
(torrent.go): ordinal index, display path, byte length, and the extension
flags computed once at classification time. -/
structure FileInfo where
  Index : Nat
  Path : List Char
  Length : Int
  IsVideo : Bool
  IsSubtitle : Bool
deriving DecidableEq, Inhabited, Repr

/-- One caption track of a session (`SubtitleInfo` in torrent.go): display
name, signed index (non-negative = torrent file ordinal, negative = attached
by upload or external download), and content bytes. -/
structure SubtitleInfo where
  Name : List Char
  Index : Int
  Content : Bytes
deriving DecidableEq, Inhabited, Repr

/-- Engine-side per-file piece priority (anacrolix `PiecePriority` values
used by torrent.go: `None`, `Normal`, `Now`). -/
inductive Priority where
  | pnone
  | pnormal
  | pnow
deriving DecidableEq, Inhabited, Repr

/-- A managed session (`ManagedTorrent` in torrent.go).  The engine-side
per-file priorities are modelled as a list parallel to `Files`; the engine's
own file list has the same length as `Files` by construction of
`classifyFiles`. -/
structure Session where
  ID : String
  Name : String
  Files : List FileInfo
  SelectedFile : Int
  Subtitles : List SubtitleInfo
  Priorities : List Priority
  LastAccessed : Nat
deriving DecidableEq, Inhabited, Repr

/-- The registry's identifier-to-session map (`TorrentManager.torrents`),
modelled as an association list; Go map insertion prepends a fresh key,
lookup takes the first match, which agrees with map semantics because keys
stay distinct (proved below). -/
abbrev Registry := List (String × Session)

/-- Map lookup `m.torrents[id]`. -/
def lookupReg : Registry → String → Option Session
  | [], _ => none
  | (k, s) :: rest, id => if k = id then some s else lookupReg rest id

/-- Map update `m.torrents[id] = s'` for a key already present: replaces the
first binding of `id`. -/
def updateReg : Registry → String → Session → Registry
  | [], _, _ => []
  | (k, s) :: rest, id, s' =>
    if k = id then (k, s') :: rest else (k, s) :: updateReg rest id s'

/-- Map deletion `delete(m.torrents, id)`. -/
def removeReg : Registry → String → Registry
  | [], _ => []
  | (k, s) :: rest, id => if k = id then rest else (k, s) :: removeReg rest id

/-- The file extensions classified as video (torrent.go `videoExtensions`). -/
def videoExtensions : List (List Char) :=
  [".mkv".toList, ".mp4".toList, ".avi".toList, ".webm".toList,
   ".mov".toList, ".m4v".toList]

/-- The file extensions classified as subtitle (torrent.go `subtitleExtensions`). -/
def subtitleExtensions : List (List Char) :=
  [".srt".toList, ".vtt".toList, ".ass".toList, ".sub".toList]

/-- Models `classifyFiles`: derives index, path, length and the two extension
flags for every engine file, exactly once. -/
def classifyFiles (engineFiles : List (List Char × Int)) : List FileInfo :=
  engineFiles.enum.map fun p =>
    let ext := lowerStr (goExt p.2.1)
    { Index := p.1, Path := p.2.1, Length := p.2.2,
      IsVideo := decide (ext ∈ videoExtensions),
      IsSubtitle := decide (ext ∈ subtitleExtensions) }

/-- The session built by `AddMagnet` after a successful metadata fetch
(torrent.go lines 104-111): selected file starts at -1, no subtitles. -/
def newSession (id name : String) (engineFiles : List (List Char × Int))
    (now : Nat) : Session :=
  { ID := id, Name := name, Files := classifyFiles engineFiles,
    SelectedFile := -1, Subtitles := [],
    Priorities := engineFiles.map (fun _ => Priority.pnone),
    LastAccessed := now }

/-- Error kinds surfaced by the registry operations (torrent.go returns them
as distinct error strings). -/
inductive SErr where
  | notFound
  | outOfRange
  | noSelection
  | metadataTimeout
deriving DecidableEq, Repr

/-- Result of one `AddMagnet` call: the registry afterwards, the returned
session or error, and whether the caller's own engine handle was dropped. -/
structure AddResult where
  reg : Registry
  result : Except SErr Session
  droppedHandle : Bool
deriving Repr

/-- The insert step of `AddMagnet` (torrent.go lines 113-121): under the
write lock the map is re-checked; a session already stored wins, the caller
drops its own engine handle and returns the stored session; otherwise the
new session is inserted.  Returns (registry, returned session, dropped?). -/
def insertStep (reg : Registry) (id : String) (mt : Session) :
    Registry × Session × Bool :=
  match lookupReg reg id with
  | some existing => (reg, existing, true)
  | none => ((id, mt) :: reg, mt, false)

/-- Models `AddMagnet` (torrent.go lines 72-124) for a descriptor whose
identifier, display name and file list are `id`, `name`, `engineFiles`;
`gotInfo` says whether metadata arrived before the 60s timeout. -/
def addMagnet (reg : Registry) (id name : String)
    (engineFiles : List (List Char × Int)) (gotInfo : Bool) (now : Nat) :
    AddResult :=
  match lookupReg reg id with
  | some existing =>
    let s := { existing with LastAccessed := now }
    ⟨updateReg reg id s, .ok s, false⟩
  | none =>
    if gotInfo then
      let r := insertStep reg id (newSession id name engineFiles now)
      ⟨r.1, .ok r.2.1, r.2.2⟩
    else ⟨reg, .error .metadataTimeout, true⟩

/-- Models `GetTorrent` (torrent.go lines 126-136): looks the session up and
refreshes its last-access time. -/
def getTorrent (reg : Registry) (id : String) (now : Nat) :
    Registry × Option Session :=
  match lookupReg reg id with
  | none => (reg, none)
  | some s =>
    let s' := { s with LastAccessed := now }
    (updateReg reg id s', some s')

/-- Base name (without extension) of the selected video file, used by the
matcher (`videoBase` in torrent.go line 161). -/
def videoBaseOf (s : Session) (idx : Nat) : List Char :=
  stripExt (goBase (s.Files.getD idx default).Path)

/-- Directory of the selected video file (`videoDir`, torrent.go line 162). -/
def videoDirOf (s : Session) (idx : Nat) : List Char :=
  goDir (s.Files.getD idx default).Path

/-- Priorities after the reprioritisation pass of `SelectFile` (torrent.go
lines 152-156): every file to `None`, then the chosen file to `Normal`. -/
def prios0Of (s : Session) (idx : Nat) : List Priority :=
  (s.Priorities.map (fun _ => Priority.pnone)).set idx Priority.pnormal

/-- Content stored for one torrent-scanned subtitle candidate (torrent.go
lines 177-180): converted when the lower-cased extension is `.srt`, raw
bytes otherwise. -/
def mkSubContent (path : List Char) (raw : Bytes) : Bytes :=
  if lowerStr (goExt path) = ".srt".toList then ConvertSRTtoVTT raw else raw

/-- The matcher's classification of one candidate (torrent.go line 191):
matched iff the candidate's base name without extension starts with the
selected file's base name without extension, or both reside in the same
directory. -/
def isMatched (videoBase videoDir : List Char) (fi : FileInfo) : Bool :=
  startsWithL (stripExt (goBase fi.Path)) videoBase || goDir fi.Path = videoDir

/-- The subtitle-rebuild loop of `SelectFile` (torrent.go lines 164-196) over
the enumerated file list: every candidate flagged is-subtitle gets priority
`Now`; a failed read skips the candidate; a successful read is converted if
needed and appended to the matched or unmatched bucket.  Returns the final
priorities and the two buckets in file order. -/
def subScan (rf : Nat → Option Bytes) (videoBase videoDir : List Char) :
    List (Nat × FileInfo) → List Priority →
    List Priority × List SubtitleInfo × List SubtitleInfo
  | [], prios => (prios, [], [])
  | (i, fi) :: rest, prios =>
    if fi.IsSubtitle then
      let prios1 := prios.set i Priority.pnow
      match rf i with
      | none => subScan rf videoBase videoDir rest prios1
      | some raw =>
        let sub : SubtitleInfo :=
          { Name := goBase fi.Path, Index := (i : Int),
            Content := mkSubContent fi.Path raw }
        let r := subScan rf videoBase videoDir rest prios1
        if isMatched videoBase videoDir fi
        then (r.1, sub :: r.2.1, r.2.2)
        else (r.1, r.2.1, sub :: r.2.2)
    else subScan rf videoBase videoDir rest prios

/-- The per-session body of `SelectFile` (torrent.go lines 144-199), after
`GetTorrent` succeeded: bounds check, reprioritisation, record the selected
index, rebuild the subtitle list from scratch as matched ++ unmatched.
`rf i` is the engine read of file `i` (`readTorrentFile`), `none` on error. -/
def Session.selectFile (s : Session) (fileIndex : Int)
    (rf : Nat → Option Bytes) : Except SErr Session :=
  if fileIndex < 0 ∨ (s.Files.length : Int) ≤ fileIndex then .error .outOfRange
  else
    let idx := fileIndex.toNat
    let r := subScan rf (videoBaseOf s idx) (videoDirOf s idx)
               s.Files.enum (prios0Of s idx)
    .ok { s with SelectedFile := fileIndex, Priorities := r.1,
                 Subtitles := r.2.1 ++ r.2.2 }

/-- Models `SelectFile` at the registry level (torrent.go lines 138-200):
`GetTorrent` first (refreshing last access), then the per-session body; the
refreshed last-access time stays in the registry even when the index is out
of range. -/
def regSelectFile (reg : Registry) (id : String) (fileIndex : Int)
    (rf : Nat → Option Bytes) (now : Nat) : Registry × Except SErr Session :=
  match getTorrent reg id now with
  | (reg1, none) => (reg1, .error .notFound)
  | (reg1, some s) =>
    match s.selectFile fileIndex rf with
    | .error e => (reg1, .error e)
    | .ok s' => (updateReg reg1 id s', .ok s')

/-- Read-ahead window derived from the file length (torrent.go lines
219-225): 16 MiB base, 32 MiB above 500 MiB, 64 MiB above 2 GiB. -/
def readaheadFor (len : Int) : Int :=
  if len > 2 * 1024 * 1024 * 1024 then 64 * 1024 * 1024
  else if len > 500 * 1024 * 1024 then 32 * 1024 * 1024
  else 16 * 1024 * 1024

/-- Models `GetFileReader` (torrent.go lines 202-230).  The reader is
modelled by the file it is bound to and its configured read-ahead window.
The source indexes the engine file list without a bounds check; that access
is modelled by `get?`, so `.ok none` stands for the panic case that the
selected index is non-negative yet out of bounds. -/
def regGetFileReader (reg : Registry) (id : String) (now : Nat) :
    Registry × Except SErr (Option (FileInfo × Int)) :=
  match getTorrent reg id now with
  | (reg1, none) => (reg1, .error .notFound)
  | (reg1, some s) =>
    if s.SelectedFile < 0 then (reg1, .error .noSelection)
    else
      match s.Files.get? s.SelectedFile.toNat with
      | none => (reg1, .ok none)
      | some fi => (reg1, .ok (some (fi, readaheadFor fi.Length)))

/-- The subtitle-attach core shared by `handleUploadSubtitle` (handlers.go
lines 244-258) and `handleDownloadSubtitle` (handlers.go lines 347-360):
convert when the lower-cased extension is `.srt` (renaming to `.vtt`), then
append with index `-(len(mt.Subtitles)+1)`.  Returns the new session, the
stored name and the assigned index. -/
def attachSubtitle (s : Session) (name : List Char) (raw : Bytes) :
    Session × List Char × Int :=
  let conv := lowerStr (goExt name) = ".srt".toList
  let name1 := if conv then stripExt name ++ ".vtt".toList else name
  let content := if conv then ConvertSRTtoVTT raw else raw
  let uploadIndex : Int := -((s.Subtitles.length : Int) + 1)
  ({ s with Subtitles :=
      s.Subtitles ++ [{ Name := name1, Index := uploadIndex, Content := content }] },
   name1, uploadIndex)

/-- Models the session-mutating part of `handleUploadSubtitle`: `GetTorrent`,
then attach.  Returns the registry and, on success, stored name and index. -/
def regUploadSubtitle (reg : Registry) (id : String) (name : List Char)
    (raw : Bytes) (now : Nat) : Registry × Option (List Char × Int) :=
  match getTorrent reg id now with
  | (reg1, none) => (reg1, none)
  | (reg1, some s) =>
    let r := attachSubtitle s name raw
    (updateReg reg1 id r.1, some r.2)

/-- Models the session-mutating part of `handleDownloadSubtitle`: identical
attach core applied to the bytes and file name fetched from the external
subtitle service. -/
def regDownloadSubtitle (reg : Registry) (id : String) (fileName : List Char)
    (raw : Bytes) (now : Nat) : Registry × Option (List Char × Int) :=
  match getTorrent reg id now with
  | (reg1, none) => (reg1, none)
  | (reg1, some s) =>
    let r := attachSubtitle s fileName raw
    (updateReg reg1 id r.1, some r.2)

/-- Models `RemoveTorrent` (torrent.go lines 232-243). -/
def regRemove (reg : Registry) (id : String) : Registry := removeReg reg id

/-- Models the sweep body `cleanup` (torrent.go lines 287-302): snapshot the
identifiers whose last access is older than `maxAge`, then remove each. -/
def regCleanup (reg : Registry) (nowT maxAge : Nat) : Registry :=
  let stale := (reg.filter (fun p => decide (maxAge < nowT - p.2.LastAccessed))).map Prod.fst
  stale.foldl removeReg reg

/-- One externally triggered registry operation; functions model the engine
(file metadata, per-file reads) and clocks as explicit inputs. -/
inductive Op where
  | add (id name : String) (engineFiles : List (List Char × Int))
        (gotInfo : Bool) (now : Nat)
  | look (id : String) (now : Nat)
  | select (id : String) (fileIndex : Int) (rf : Nat → Option Bytes) (now : Nat)
  | upload (id : String) (name : List Char) (raw : Bytes) (now : Nat)
  | download (id : String) (fileName : List Char) (raw : Bytes) (now : Nat)
  | remove (id : String)
  | removeAll
  | sweep (nowT maxAge : Nat)

/-- Effect of one operation on the registry map. -/
def applyOp (reg : Registry) : Op → Registry
  | .add id name fs g now => (addMagnet reg id name fs g now).reg
  | .look id now => (getTorrent reg id now).1
  | .select id fi rf now => (regSelectFile reg id fi rf now).1
  | .upload id n r now => (regUploadSubtitle reg id n r now).1
  | .download id n r now => (regDownloadSubtitle reg id n r now).1
  | .remove id => regRemove reg id
  | .removeAll => []
  | .sweep t a => regCleanup reg t a

/-- The registry reached by a sequence of operations from the empty map
(`NewTorrentManager` starts with an empty map). -/
def runOps (ops : List Op) : Registry := ops.foldl applyOp []

/-- The subtitle entry `SelectFile` builds for file `i` when it is flagged
is-subtitle and its read succeeds (`none` otherwise). -/
def candSub (rf : Nat → Option Bytes) (i : Nat) (fi : FileInfo) :
    Option SubtitleInfo :=
  if fi.IsSubtitle then
    (rf i).map fun raw =>
      { Name := goBase fi.Path, Index := (i : Int),
        Content := mkSubContent fi.Path raw }
  else none

/-- The processed candidates of the rebuild loop, in file order, paired with
the file they come from: exactly the is-subtitle files whose read succeeds. -/
def procOf (rf : Nat → Option Bytes) (l : List (Nat × FileInfo)) :
    List (FileInfo × SubtitleInfo) :=
  l.filterMap fun p => (candSub rf p.1 p.2).map (fun sb => (p.2, sb))

/-- The matched bucket of `subScan` is the matched candidates in file order. -/
theorem subScan_matched (rf : Nat → Option Bytes) (vb vd : List Char)
    (l : List (Nat × FileInfo)) (prios : List Priority) :
    (subScan rf vb vd l prios).2.1 =
      ((procOf rf l).filter (fun q => isMatched vb vd q.1)).map Prod.snd := by
  induction l generalizing prios with
  | nil => simp [subScan, procOf]
  | cons p rest ih =>
    obtain ⟨i, fi⟩ := p
    by_cases hsub : fi.IsSubtitle
    · cases hrf : rf i with
      | none => simp [subScan, hsub, hrf, procOf, candSub, List.filterMap_cons, ih]
      | some raw =>
        by_cases hm : isMatched vb vd fi
        · simp [subScan, hsub, hrf, hm, procOf, candSub, List.filterMap_cons, ih]
        · simp [subScan, hsub, hrf, hm, procOf, candSub, List.filterMap_cons, ih]
    · simp [subScan, hsub, procOf, candSub, List.filterMap_cons, ih]

/-- The unmatched bucket of `subScan` is the unmatched candidates in file
order. -/
theorem subScan_other (rf : Nat → Option Bytes) (vb vd : List Char)
    (l : List (Nat × FileInfo)) (prios : List Priority) :
    (subScan rf vb vd l prios).2.2 =
      ((procOf rf l).filter (fun q => !(isMatched vb vd q.1))).map Prod.snd := by
  induction l generalizing prios with
  | nil => simp [subScan, procOf]
  | cons p rest ih =>
    obtain ⟨i, fi⟩ := p
    by_cases hsub : fi.IsSubtitle
    · cases hrf : rf i with
      | none => simp [subScan, hsub, hrf, procOf, candSub, List.filterMap_cons, ih]
      | some raw =>
        by_cases hm : isMatched vb vd fi
        · simp [subScan, hsub, hrf, hm, procOf, candSub, List.filterMap_cons, ih]
        · simp [subScan, hsub, hrf, hm, procOf, candSub, List.filterMap_cons, ih]
    · simp [subScan, hsub, procOf, candSub, List.filterMap_cons, ih]

/-- Unfolding of a successful `SelectFile` body. -/
theorem selectFile_ok_iff (s : Session) (f : Int) (rf : Nat → Option Bytes)
    (s' : Session) :
    s.selectFile f rf = .ok s' ↔
      ¬(f < 0 ∨ (s.Files.length : Int) ≤ f) ∧
      s' = { s with
              SelectedFile := f,
              Priorities := (subScan rf (videoBaseOf s f.toNat)
                (videoDirOf s f.toNat) s.Files.enum (prios0Of s f.toNat)).1,
              Subtitles := (subScan rf (videoBaseOf s f.toNat)
                  (videoDirOf s f.toNat) s.Files.enum (prios0Of s f.toNat)).2.1
                ++ (subScan rf (videoBaseOf s f.toNat)
                  (videoDirOf s f.toNat) s.Files.enum (prios0Of s f.toNat)).2.2 } := by
  unfold Session.selectFile
  split
  · rename_i h
    constructor
    · intro he; cases he
    · rintro ⟨hn, _⟩; exact absurd h hn
  · rename_i h
    constructor
    · intro he
      refine ⟨h, ?_⟩
      cases he
      rfl
    · rintro ⟨_, rfl⟩
      rfl

/-- Selected-file invariant of one session: either no selection (-1) or a
valid index into the session's file list. -/
def selInvS (s : Session) : Prop :=
  s.SelectedFile = -1 ∨ (0 ≤ s.SelectedFile ∧ s.SelectedFile < s.Files.length)

/-- Subtitle-index invariant of one session: indices are pairwise distinct,
and every negative index equals minus (its position + 1), which is how the
attach handlers assign them. -/
def subIdxInv (subs : List SubtitleInfo) : Prop :=
  (subs.map SubtitleInfo.Index).Nodup ∧
  ∀ p sub, subs.get? p = some sub → sub.Index < 0 → sub.Index = -((p : Int) + 1)

/-- Invariant of one stored session. -/
def sessionInv (s : Session) : Prop := selInvS s ∧ subIdxInv s.Subtitles

/-- Registry invariant: identifiers are pairwise distinct (at most one
session per identifier) and every stored session satisfies its invariant. -/
def regInv (reg : Registry) : Prop :=
  (reg.map Prod.fst).Nodup ∧ ∀ p ∈ reg, sessionInv p.2

theorem lookupReg_mem {reg : Registry} {id : String} {s : Session}
    (h : lookupReg reg id = some s) : (id, s) ∈ reg := by
  induction reg with
  | nil => simp [lookupReg] at h
  | cons p rest ih =>
    obtain ⟨k, v⟩ := p
    by_cases hk : k = id
    · subst hk
      simp [lookupReg] at h
      subst h
      exact List.mem_cons_self _ _
    · simp [lookupReg, hk] at h
      exact List.mem_cons_of_mem _ (ih h)

theorem lookupReg_eq_none_iff {reg : Registry} {id : String} :
    lookupReg reg id = none ↔ id ∉ reg.map Prod.fst := by
  induction reg with
  | nil => simp [lookupReg]
  | cons p rest ih =>
    obtain ⟨k, v⟩ := p
    by_cases hk : k = id
    · subst hk; simp [lookupReg]
    · simp [lookupReg, hk, ih, Ne.symm hk]

theorem keys_updateReg (reg : Registry) (id : String) (s' : Session) :
    (updateReg reg id s').map Prod.fst = reg.map Prod.fst := by
  induction reg with
  | nil => rfl
  | cons p rest ih =>
    obtain ⟨k, v⟩ := p
    by_cases hk : k = id
    · simp [updateReg, hk]
    · simp [updateReg, hk, ih]

theorem mem_updateReg {reg : Registry} {id : String} {s' : Session} {p}
    (h : p ∈ updateReg reg id s') : p.2 = s' ∨ p ∈ reg := by
  induction reg with
  | nil => simp [updateReg] at h
  | cons q rest ih =>
    obtain ⟨k, v⟩ := q
    by_cases hk : k = id
    · simp only [updateReg, hk, if_pos rfl] at h
      rcases List.mem_cons.mp h with h | h
      · subst h; exact Or.inl rfl
      · exact Or.inr (List.mem_cons_of_mem _ h)
    · simp only [updateReg, if_neg hk] at h
      rcases List.mem_cons.mp h with h | h
      · subst h; exact Or.inr (List.mem_cons_self _ _)
      · rcases ih h with h | h
        · exact Or.inl h
        · exact Or.inr (List.mem_cons_of_mem _ h)

theorem lookupReg_updateReg_self {reg : Registry} {id : String} {s : Session}
    (t : Session) (h : lookupReg reg id = some s) :
    lookupReg (updateReg reg id t) id = some t := by
  induction reg with
  | nil => simp [lookupReg] at h
  | cons p rest ih =>
    obtain ⟨k, v⟩ := p
    by_cases hk : k = id
    · simp [updateReg, hk, lookupReg]
    · simp [lookupReg, hk] at h
      simp [updateReg, hk, lookupReg, ih h]

theorem removeReg_sublist (reg : Registry) (id : String) :
    List.Sublist (removeReg reg id) reg := by
  induction reg with
  | nil => simp [removeReg]
  | cons p rest ih =>
    obtain ⟨k, v⟩ := p
    by_cases hk : k = id
    · simp only [removeReg, if_pos hk]
      exact List.sublist_cons_self _ _
    · simp only [removeReg, if_neg hk]
      exact ih.cons₂ (k, v)

theorem regInv_of_sublist {reg reg' : Registry} (hs : List.Sublist reg' reg)
    (h : regInv reg) : regInv reg' :=
  ⟨h.1.sublist (hs.map Prod.fst), fun p hp => h.2 p (hs.subset hp)⟩

theorem candSub_index {rf : Nat → Option Bytes} {i : Nat} {fi : FileInfo}
    {sb : SubtitleInfo} (h : candSub rf i fi = some sb) : sb.Index = (i : Int) := by
  unfold candSub at h
  by_cases hs : fi.IsSubtitle
  · simp only [hs, if_pos] at h
    cases hrf : rf i with
    | none => rw [hrf] at h; simp at h
    | some raw => rw [hrf] at h; simp at h; rw [← h]
  · simp [hs] at h

theorem mem_procOf {rf : Nat → Option Bytes} {l : List (Nat × FileInfo)}
    {q : FileInfo × SubtitleInfo} (h : q ∈ procOf rf l) :
    ∃ i, (i, q.1) ∈ l ∧ candSub rf i q.1 = some q.2 := by
  unfold procOf at h
  rcases List.mem_filterMap.mp h with ⟨p, hp, hf⟩
  rcases Option.map_eq_some'.mp hf with ⟨sb, hc, he⟩
  obtain ⟨i, fi⟩ := p
  cases he
  exact ⟨i, hp, hc⟩

theorem procOf_mem {rf : Nat → Option Bytes} {l : List (Nat × FileInfo)}
    {i : Nat} {fi : FileInfo} {sb : SubtitleInfo}
    (hl : (i, fi) ∈ l) (hc : candSub rf i fi = some sb) : (fi, sb) ∈ procOf rf l := by
  unfold procOf
  exact List.mem_filterMap.mpr ⟨(i, fi), hl, by simp [hc]⟩

theorem procOf_index_sublist (rf : Nat → Option Bytes) (l : List (Nat × FileInfo)) :
    List.Sublist ((procOf rf l).map (fun q => q.2.Index))
      (l.map (fun p => ((p.1 : Nat) : Int))) := by
  induction l with
  | nil => simp [procOf]
  | cons p rest ih =>
    obtain ⟨i, fi⟩ := p
    unfold procOf at ih ⊢
    rw [List.filterMap_cons]
    cases hc : (candSub rf i fi).map (fun sb => (fi, sb)) with
    | none =>
      simp only [List.map_cons]
      exact ih.cons _
    | some q =>
      rcases Option.map_eq_some'.mp hc with ⟨sb, hcs, he⟩
      subst he
      simp only [List.map_cons, candSub_index hcs]
      exact ih.cons₂ _

theorem enum_index_nodup (files : List FileInfo) :
    (files.enum.map (fun p => ((p.1 : Nat) : Int))).Nodup := by
  have hinj : Function.Injective (fun n : Nat => (n : Int)) :=
    fun a b hab => Int.natCast_inj.mp hab
  have h := (List.nodup_enum_map_fst files).map hinj
  rw [List.map_map] at h
  exact h

/-- The rebuilt subtitle list of `SelectFile` has pairwise distinct indices,
all non-negative. -/
theorem rebuilt_subs_inv (rf : Nat → Option Bytes) (vb vd : List Char)
    (files : List FileInfo) (prios : List Priority) :
    (((subScan rf vb vd files.enum prios).2.1
        ++ (subScan rf vb vd files.enum prios).2.2).map SubtitleInfo.Index).Nodup ∧
    ∀ sub ∈ (subScan rf vb vd files.enum prios).2.1
        ++ (subScan rf vb vd files.enum prios).2.2, 0 ≤ sub.Index := by
  rw [subScan_matched, subScan_other]
  set L := procOf rf files.enum with hL
  constructor
  · have hmaps :
        ((L.filter (fun q => isMatched vb vd q.1)).map Prod.snd
          ++ (L.filter (fun q => !(isMatched vb vd q.1))).map Prod.snd).map SubtitleInfo.Index
        = ((L.filter (fun q => isMatched vb vd q.1))
            ++ (L.filter (fun q => !(isMatched vb vd q.1)))).map (fun q => q.2.Index) := by
      simp [List.map_append, List.map_map, Function.comp_def]
    rw [hmaps]
    have hperm : List.Perm
        (((L.filter (fun q => isMatched vb vd q.1))
          ++ (L.filter (fun q => !(isMatched vb vd q.1)))).map (fun q => q.2.Index))
        (L.map (fun q => q.2.Index)) :=
      (List.filter_append_perm _ L).map _
    rw [hperm.nodup_iff]
    exact ((procOf_index_sublist rf files.enum).nodup (enum_index_nodup files))
  · intro sub hsub
    have hsub' : sub ∈ L.map Prod.snd := by
      rcases List.mem_append.mp hsub with h | h
      all_goals
        rcases List.mem_map.mp h with ⟨q, hq, he⟩
        exact List.mem_map.mpr ⟨q, List.mem_of_mem_filter hq, he⟩
    rcases List.mem_map.mp hsub' with ⟨q, hq, he⟩
    rcases mem_procOf hq with ⟨i, _, hc⟩
    rw [← he, candSub_index hc]
    exact Int.natCast_nonneg i

theorem sessionInv_touch {s : Session} (n : Nat) (h : sessionInv s) :
    sessionInv { s with LastAccessed := n } := h

theorem sessionInv_newSession (id name : String)
    (fs : List (List Char × Int)) (now : Nat) :
    sessionInv (newSession id name fs now) := by
  refine ⟨Or.inl rfl, by simp [newSession, subIdxInv]⟩

theorem selectFile_files {s s' : Session} {f : Int} {rf : Nat → Option Bytes}
    (h : s.selectFile f rf = .ok s') : s'.Files = s.Files := by
  rcases (selectFile_ok_iff s f rf s').mp h with ⟨_, rfl⟩
  rfl

theorem sessionInv_selectFile {s s' : Session} {f : Int} {rf : Nat → Option Bytes}
    (h : s.selectFile f rf = .ok s') : sessionInv s' := by
  rcases (selectFile_ok_iff s f rf s').mp h with ⟨hb, rfl⟩
  push_neg at hb
  constructor
  · exact Or.inr ⟨hb.1, by exact_mod_cast hb.2⟩
  · constructor
    · exact (rebuilt_subs_inv rf (videoBaseOf s f.toNat) (videoDirOf s f.toNat)
        s.Files (prios0Of s f.toNat)).1
    · intro p sub hp hneg
      have hmem := List.get?_mem hp
      have := (rebuilt_subs_inv rf (videoBaseOf s f.toNat) (videoDirOf s f.toNat)
        s.Files (prios0Of s f.toNat)).2 sub hmem
      omega

theorem sessionInv_attach {s : Session} (name : List Char) (raw : Bytes)
    (h : sessionInv s) : sessionInv (attachSubtitle s name raw).1 := by
  obtain ⟨hsel, hnd, hpos⟩ := h
  have hlen0 : (0 : Int) ≤ (s.Subtitles.length : Int) := Int.natCast_nonneg _
  refine ⟨hsel, ?_, ?_⟩
  · -- distinct indices after appending the new negative index
    unfold attachSubtitle
    simp only [List.map_append, List.map_cons, List.map_nil]
    refine List.Nodup.append hnd (List.nodup_singleton _) ?_
    intro a ha hb
    simp only [List.mem_singleton] at hb
    subst hb
    rcases List.mem_map.mp ha with ⟨sub, hsub, hidx⟩
    rcases List.mem_iff_get?.mp hsub with ⟨p, hp⟩
    have hplt : p < s.Subtitles.length := by
      rcases List.get?_eq_some.mp hp with ⟨hlt, _⟩
      exact hlt
    have hneg : sub.Index < 0 := by rw [hidx]; omega
    have := hpos p sub hp hneg
    rw [hidx] at this
    omega
  · -- positional rule still holds at every index
    unfold attachSubtitle
    intro p sub hp hneg
    by_cases hplt : p < s.Subtitles.length
    · rw [List.get?_append hplt] at hp
      exact hpos p sub hp hneg
    · have hple : p ≤ s.Subtitles.length + 1 - 1 := by
        by_contra hgt
        push_neg at hgt
        rw [List.get?_eq_none.mpr (by simp; omega)] at hp
        cases hp
      have hpe : p = s.Subtitles.length := by omega
      subst hpe
      rw [List.get?_concat_length] at hp
      cases hp
      simp

theorem regInv_updateReg {reg : Registry} {id : String} {s' : Session}
    (h : regInv reg) (hs' : sessionInv s') : regInv (updateReg reg id s') := by
  constructor
  · rw [keys_updateReg]
    exact h.1
  · intro p hp
    rcases mem_updateReg hp with he | hm
    · rw [he]; exact hs'
    · exact h.2 p hm

theorem regInv_getTorrent (reg : Registry) (id : String) (now : Nat)
    (h : regInv reg) : regInv (getTorrent reg id now).1 := by
  cases hl : lookupReg reg id with
  | none => simpa [getTorrent, hl] using h
  | some s =>
    have hm := h.2 (id, s) (lookupReg_mem hl)
    simpa [getTorrent, hl] using
      regInv_updateReg h (sessionInv_touch now hm)

theorem regInv_addMagnet (reg : Registry) (id name : String)
    (fs : List (List Char × Int)) (g : Bool) (now : Nat) (h : regInv reg) :
    regInv (addMagnet reg id name fs g now).reg := by
  unfold addMagnet
  cases hl : lookupReg reg id with
  | some s =>
    have hm := h.2 (id, s) (lookupReg_mem hl)
    simpa using regInv_updateReg h (sessionInv_touch now hm)
  | none =>
    cases g with
    | false => simpa using h
    | true =>
      simp only [insertStep, hl, if_pos]
      refine ⟨List.Nodup.cons ?_ h.1, ?_⟩
      · intro hmem
        exact (lookupReg_eq_none_iff.mp hl) (by simpa using hmem)
      · intro p hp
        rcases List.mem_cons.mp hp with he | hm
        · subst he
          exact sessionInv_newSession id name fs now
        · exact h.2 p hm

theorem regInv_foldl_remove (ids : List String) (reg : Registry)
    (h : regInv reg) : regInv (ids.foldl removeReg reg) := by
  induction ids generalizing reg with
  | nil => exact h
  | cons i rest ih =>
    exact ih _ (regInv_of_sublist (removeReg_sublist reg i) h)

theorem regInv_applyOp (reg : Registry) (op : Op) (h : regInv reg) :
    regInv (applyOp reg op) := by
  cases op with
  | add id name fs g now => exact regInv_addMagnet reg id name fs g now h
  | look id now => exact regInv_getTorrent reg id now h
  | select id fi rf now =>
    unfold applyOp regSelectFile
    cases hl : lookupReg reg id with
    | none => simpa [getTorrent, hl] using h
    | some s =>
      have hinv1 : regInv (updateReg reg id { s with LastAccessed := now }) :=
        regInv_updateReg h (sessionInv_touch now (h.2 (id, s) (lookupReg_mem hl)))
      cases hsel : Session.selectFile { s with LastAccessed := now } fi rf with
      | error e => simpa [getTorrent, hl, hsel] using hinv1
      | ok s' =>
        simpa [getTorrent, hl, hsel] using
          regInv_updateReg hinv1 (sessionInv_selectFile hsel)
  | upload id n r now =>
    unfold applyOp regUploadSubtitle
    cases hl : lookupReg reg id with
    | none => simpa [getTorrent, hl] using h
    | some s =>
      have hinv1 : regInv (updateReg reg id { s with LastAccessed := now }) :=
        regInv_updateReg h (sessionInv_touch now (h.2 (id, s) (lookupReg_mem hl)))
      have hatt := sessionInv_attach n r
        (sessionInv_touch now (h.2 (id, s) (lookupReg_mem hl)))
      simpa [getTorrent, hl] using regInv_updateReg hinv1 hatt
  | download id n r now =>
    unfold applyOp regDownloadSubtitle
    cases hl : lookupReg reg id with
    | none => simpa [getTorrent, hl] using h
    | some s =>
      have hinv1 : regInv (updateReg reg id { s with LastAccessed := now }) :=
        regInv_updateReg h (sessionInv_touch now (h.2 (id, s) (lookupReg_mem hl)))
      have hatt := sessionInv_attach n r
        (sessionInv_touch now (h.2 (id, s) (lookupReg_mem hl)))
      simpa [getTorrent, hl] using regInv_updateReg hinv1 hatt
  | remove id => exact regInv_of_sublist (removeReg_sublist reg id) h
  | removeAll => exact ⟨by simp [applyOp], by simp [applyOp]⟩
  | sweep t a => exact regInv_foldl_remove _ reg h

theorem regInv_runOps_from (ops : List Op) (reg : Registry) (h : regInv reg) :
    regInv (ops.foldl applyOp reg) := by
  induction ops generalizing reg with
  | nil => exact h
  | cons op rest ih => exact ih _ (regInv_applyOp reg op h)

/-- Every registry state reachable through the modelled operations satisfies
the registry invariant. -/
theorem regInv_runOps (ops : List Op) : regInv (runOps ops) :=
  regInv_runOps_from ops [] ⟨List.nodup_nil, by simp⟩

theorem selectFile_error_eq {s : Session} {f : Int} {rf : Nat → Option Bytes}
    {e : SErr} (h : s.selectFile f rf = .error e) : e = .outOfRange := by
  unfold Session.selectFile at h
  split at h
  · cases h; rfl
  · cases h

/-- C5: `GetFileReader` configures the read-ahead window from the file byte
length with exclusive thresholds: 16 MiB up to and including 500 MiB, 32 MiB
above 500 MiB up to and including 2 GiB, 64 MiB above 2 GiB; in particular a
100 MiB file gets 16 MiB, a 1 GiB file 32 MiB and a 3 GiB file 64 MiB. -/
theorem c5_readahead_tiers (L : Int) :
    (L ≤ 500 * 1024 * 1024 → readaheadFor L = 16 * 1024 * 1024) ∧
    (500 * 1024 * 1024 < L → L ≤ 2 * 1024 * 1024 * 1024 →
      readaheadFor L = 32 * 1024 * 1024) ∧
    (2 * 1024 * 1024 * 1024 < L → readaheadFor L = 64 * 1024 * 1024) ∧
    readaheadFor (100 * 1024 * 1024) = 16 * 1024 * 1024 ∧
    readaheadFor (1024 * 1024 * 1024) = 32 * 1024 * 1024 ∧
    readaheadFor (3 * 1024 * 1024 * 1024) = 64 * 1024 * 1024 := by
  unfold readaheadFor
  refine ⟨fun h => ?_, fun h1 h2 => ?_, fun h => ?_, by norm_num, by norm_num, by norm_num⟩
  · rw [if_neg (by omega), if_neg (by omega)]
  · rw [if_neg (by omega), if_pos (by omega)]
  · rw [if_pos (by omega)]

theorem c5_witness :
    readaheadFor 0 = 16 * 1024 * 1024 ∧
    readaheadFor (600 * 1024 * 1024) = 32 * 1024 * 1024 ∧
    readaheadFor (3 * 1024 * 1024 * 1024) = 64 * 1024 * 1024 :=
  ⟨(c5_readahead_tiers 0).1 (by norm_num),
   (c5_readahead_tiers (600 * 1024 * 1024)).2.1 (by norm_num) (by norm_num),
   (c5_readahead_tiers (3 * 1024 * 1024 * 1024)).2.2.1 (by norm_num)⟩

/-- C4 as stated is false on inputs that themselves begin with a byte-order
mark: `TrimPrefix` strips only the added mark, leaving the input's own mark
as literal content of the first line, so the outputs differ. -/
theorem c4_counterexample :
    ConvertSRTtoVTT (bomBytes ++ bomBytes) ≠ ConvertSRTtoVTT bomBytes := by
  decide

/-- C4 (amended): the two fixtures hold, and prefixing the byte-order mark
leaves the output unchanged for every input that does not itself already
begin with the byte-order mark. -/
theorem c4_converter_fixtures :
    ConvertSRTtoVTT (bstr "1\n00:00:01,000 --> 00:00:04,000\nHello world\n")
      = bstr "WEBVTT\n\n" ++ bstr "00:00:01.000 --> 00:00:04.000\nHello world\n" ∧
    ConvertSRTtoVTT (bstr "") = bstr "WEBVTT\n\n" ∧
    ∀ bs : Bytes, startsWithL bs bomBytes = false →
      ConvertSRTtoVTT (bomBytes ++ bs) = ConvertSRTtoVTT bs := by
  refine ⟨by decide, by decide, ?_⟩
  intro bs h
  unfold ConvertSRTtoVTT
  have h1 : dropBom (bomBytes ++ bs) = bs := by
    unfold dropBom
    rw [if_pos (by simp [bomBytes, startsWithL])]
    simp [bomBytes]
  have h2 : dropBom bs = bs := by
    unfold dropBom
    rw [if_neg (by simp [h])]
  rw [h1, h2]

theorem c4_witness :
    startsWithL (bstr "1\n00:00:01,000 --> 00:00:04,000\nHello world\n") bomBytes = false ∧
    ConvertSRTtoVTT (bomBytes ++ bstr "1\n00:00:01,000 --> 00:00:04,000\nHello world\n")
      = ConvertSRTtoVTT (bstr "1\n00:00:01,000 --> 00:00:04,000\nHello world\n") :=
  ⟨by decide, c4_converter_fixtures.2.2 _ (by decide)⟩

/-- C1: identifiers in every reachable registry are pairwise distinct (at
most one session per identifier); the insert step of `AddMagnet`, on finding
a session already stored under the identifier, keeps the registry unchanged,
drops the caller's own engine handle and returns the stored session; two
racing creators for the same identifier converge to a single stored session
and both observe it. -/
theorem c1_single_session_per_id :
    (∀ ops : List Op, ((runOps ops).map Prod.fst).Nodup) ∧
    (∀ (reg : Registry) (id : String) (mt existing : Session),
       lookupReg reg id = some existing →
       insertStep reg id mt = (reg, existing, true)) ∧
    (∀ (reg : Registry) (id : String) (mt1 mt2 : Session),
       lookupReg reg id = none →
       insertStep reg id mt1 = ((id, mt1) :: reg, mt1, false) ∧
       insertStep ((insertStep reg id mt1).1) id mt2 = ((id, mt1) :: reg, mt1, true) ∧
       (((insertStep reg id mt1).1).map Prod.fst).count id = 1) ∧
    (∀ (reg : Registry) (id n1 n2 : String) (fs1 fs2 : List (List Char × Int))
       (g2 : Bool) (t1 t2 : Nat),
       lookupReg reg id = none →
       ∃ s1 s2 : Session,
         (addMagnet reg id n1 fs1 true t1).result = .ok s1 ∧
         (addMagnet (addMagnet reg id n1 fs1 true t1).reg id n2 fs2 g2 t2).result
           = .ok s2 ∧
         s1.ID = id ∧ s2.ID = id ∧
         (((addMagnet (addMagnet reg id n1 fs1 true t1).reg id n2 fs2 g2 t2).reg).map
             Prod.fst).count id = 1) := by
  refine ⟨fun ops => (regInv_runOps ops).1, ?_, ?_, ?_⟩
  · intro reg id mt existing hl
    simp [insertStep, hl]
  · intro reg id mt1 mt2 hl
    refine ⟨by simp [insertStep, hl], ?_, ?_⟩
    · simp [insertStep, hl, lookupReg]
    · simp only [insertStep, hl]
      rw [List.map_cons, List.count_cons_self,
        List.count_eq_zero_of_not_mem (lookupReg_eq_none_iff.mp hl)]
  · intro reg id n1 n2 fs1 fs2 g2 t1 t2 hl
    have h1 : addMagnet reg id n1 fs1 true t1
        = ⟨(id, newSession id n1 fs1 t1) :: reg, .ok (newSession id n1 fs1 t1), false⟩ := by
      simp [addMagnet, hl, insertStep]
    have hl2 : lookupReg ((id, newSession id n1 fs1 t1) :: reg) id
        = some (newSession id n1 fs1 t1) := by
      simp [lookupReg]
    refine ⟨newSession id n1 fs1 t1,
      { newSession id n1 fs1 t1 with LastAccessed := t2 }, ?_, ?_, rfl, rfl, ?_⟩
    · rw [h1]
    · rw [h1]
      simp [addMagnet, hl2]
    · rw [h1]
      simp only [addMagnet, hl2]
      rw [keys_updateReg, List.map_cons, List.count_cons_self,
        List.count_eq_zero_of_not_mem (lookupReg_eq_none_iff.mp hl)]

/-- C6: for an existing session, a file index that is negative or not below
the session's file count makes `SelectFile` fail with the out-of-range error
kind, distinct from not-found (which occurs exactly when the identifier is
unknown), and leaves the stored session's selected index, subtitle list and
per-file priorities unchanged (only the last-access time is refreshed by the
lookup). -/
theorem c6_out_of_range_select :
    (∀ (reg : Registry) (id : String) (s : Session) (f : Int)
       (rf : Nat → Option Bytes) (now : Nat),
       lookupReg reg id = some s →
       (f < 0 ∨ (s.Files.length : Int) ≤ f) →
       (regSelectFile reg id f rf now).2 = .error .outOfRange ∧
       lookupReg (regSelectFile reg id f rf now).1 id
         = some { s with LastAccessed := now } ∧
       Session.SelectedFile { s with LastAccessed := now } = s.SelectedFile ∧
       Session.Subtitles { s with LastAccessed := now } = s.Subtitles ∧
       Session.Priorities { s with LastAccessed := now } = s.Priorities) ∧
    SErr.outOfRange ≠ SErr.notFound ∧
    (∀ (reg : Registry) (id : String) (f : Int) (rf : Nat → Option Bytes)
       (now : Nat),
       (regSelectFile reg id f rf now).2 = .error .notFound ↔
         lookupReg reg id = none) := by
  refine ⟨?_, by simp, ?_⟩
  · intro reg id s f rf now hl hbad
    have hsel : Session.selectFile { s with LastAccessed := now } f rf
        = .error .outOfRange := by
      unfold Session.selectFile
      exact if_pos hbad
    refine ⟨?_, ?_, rfl, rfl, rfl⟩
    · simp [regSelectFile, getTorrent, hl, hsel]
    · simp only [regSelectFile, getTorrent, hl, hsel]
      exact lookupReg_updateReg_self _ hl
  · intro reg id f rf now
    cases hl : lookupReg reg id with
    | none => simp [regSelectFile, getTorrent, hl]
    | some s =>
      simp only [regSelectFile, getTorrent, hl]
      cases hsel : Session.selectFile { s with LastAccessed := now } f rf with
      | error e =>
        have := selectFile_error_eq hsel
        subst this
        simp
      | ok s' => simp

theorem c6_witness :
    (regSelectFile [("a", newSession "a" "n" [] 0)] "a" 5 (fun _ => none) 1).2
      = .error .outOfRange :=
  ((c6_out_of_range_select.1 [("a", newSession "a" "n" [] 0)] "a"
    (newSession "a" "n" [] 0) 5 (fun _ => none) 1 (by simp [lookupReg])
    (by simp [newSession, classifyFiles]))).1

/-- C10 (implicit safety invariant): in every reachable registry state each
session's selected-file index is -1 or a valid index into its file list; it
is -1 at creation, and `GetFileReader`'s unguarded indexing of the file list
at a non-negative selected index never falls out of bounds (the modelled
panic outcome `.ok none` is unreachable). -/
theorem c10_selected_index_invariant :
    (∀ (id name : String) (fs : List (List Char × Int)) (now : Nat),
       (newSession id name fs now).SelectedFile = -1) ∧
    (∀ ops : List Op, ∀ p ∈ runOps ops, selInvS p.2) ∧
    (∀ (ops : List Op) (id : String) (now : Nat),
       (regGetFileReader (runOps ops) id now).2 ≠ .ok none) := by
  refine ⟨fun _ _ _ _ => rfl, ?_, ?_⟩
  · intro ops p hp
    exact ((regInv_runOps ops).2 p hp).1
  · intro ops id now
    cases hl : lookupReg (runOps ops) id with
    | none => simp [regGetFileReader, getTorrent, hl]
    | some s =>
      have hsel : selInvS s :=
        ((regInv_runOps ops).2 (id, s) (lookupReg_mem hl)).1
      simp only [regGetFileReader, getTorrent, hl]
      by_cases hneg : Session.SelectedFile { s with LastAccessed := now } < 0
      · simp [hneg]
      · have hpos : 0 ≤ s.SelectedFile := by
          simpa using Int.not_lt.mp hneg
        have hlt : s.SelectedFile < (s.Files.length : Int) := by
          rcases hsel with h | h
          · omega
          · exact_mod_cast h.2
        have hbound : s.SelectedFile.toNat < s.Files.length := by omega
        cases hget : s.Files.get? s.SelectedFile.toNat with
        | none =>
          have := List.get?_eq_none.mp hget
          omega
        | some fi => simp [hneg, hget]

theorem c10_witness :
    selInvS (newSession "a" "n" [] 0) ∧
    (regGetFileReader (runOps [Op.add "a" "n" [] true 0]) "a" 1).2 ≠ .ok none :=
  ⟨c10_selected_index_invariant.2.1 [Op.add "a" "n" [] true 0]
      ("a", newSession "a" "n" [] 0) (by decide),
   c10_selected_index_invariant.2.2 [Op.add "a" "n" [] true 0] "a" 1⟩

theorem candSub_isSome {rf : Nat → Option Bytes} {i : Nat} {fi : FileInfo}
    {sb : SubtitleInfo} (h : candSub rf i fi = some sb) : (rf i).isSome = true := by
  unfold candSub at h
  by_cases hs : fi.IsSubtitle
  · simp only [hs, if_pos] at h
    cases hrf : rf i with
    | none => rw [hrf] at h; simp at h
    | some raw => simp
  · simp [hs] at h

theorem mem_rebuilt {rf : Nat → Option Bytes} {vb vd : List Char}
    {files : List FileInfo} {prios : List Priority} {sub : SubtitleInfo}
    (h : sub ∈ (subScan rf vb vd files.enum prios).2.1
        ++ (subScan rf vb vd files.enum prios).2.2) :
    ∃ q ∈ procOf rf files.enum, q.2 = sub := by
  rw [subScan_matched, subScan_other] at h
  rcases List.mem_append.mp h with h | h <;>
  · rcases List.mem_map.mp h with ⟨q, hq, he⟩
    exact ⟨q, List.mem_of_mem_filter hq, he⟩

theorem rebuilt_mem {rf : Nat → Option Bytes} {vb vd : List Char}
    {files : List FileInfo} {prios : List Priority} {q : FileInfo × SubtitleInfo}
    (h : q ∈ procOf rf files.enum) :
    q.2 ∈ (subScan rf vb vd files.enum prios).2.1
        ++ (subScan rf vb vd files.enum prios).2.2 := by
  rw [subScan_matched, subScan_other]
  by_cases hm : isMatched vb vd q.1
  · exact List.mem_append.mpr (Or.inl (List.mem_map.mpr
      ⟨q, List.mem_filter.mpr ⟨h, by simp [hm]⟩, rfl⟩))
  · exact List.mem_append.mpr (Or.inr (List.mem_map.mpr
      ⟨q, List.mem_filter.mpr ⟨h, by simp [hm]⟩, rfl⟩))

/-- C7: selecting file `a` and then file `b` leaves the same subtitle list
as selecting `b` alone: the rebuild discards every entry of the previous
selection before scanning, so no leftover entries remain. -/
theorem c7_selection_resets_subtitles (s sa sab sb : Session) (a b : Int)
    (rf rf2 : Nat → Option Bytes)
    (ha : s.selectFile a rf = .ok sa)
    (hab : sa.selectFile b rf2 = .ok sab)
    (hb : s.selectFile b rf2 = .ok sb) :
    sab.Subtitles = sb.Subtitles := by
  have hfiles : sa.Files = s.Files := selectFile_files ha
  rcases (selectFile_ok_iff sa b rf2 sab).mp hab with ⟨hba, rfl⟩
  rcases (selectFile_ok_iff s b rf2 sb).mp hb with ⟨hbb, rfl⟩
  simp only [subScan_matched, subScan_other, videoBaseOf, videoDirOf, hfiles]

/-- Concrete fixture session for the selection claims: one video and two
subtitle candidates, one sharing the video's base name and directory, one in
another directory with a different name. -/
def filesFix : List (List Char × Int) :=
  [("Show/S01E01.mkv".toList, 10),
   ("Show/S01E01.en.srt".toList, 1),
   ("Other/random.srt".toList, 1)]

/-- Concrete engine read used by the fixtures: every file readable. -/
def rfFix : Nat → Option Bytes := fun _ => some (bstr "x")

/-- Concrete engine read failing on file 1 only. -/
def rfFail : Nat → Option Bytes := fun i => if i = 1 then none else some (bstr "x")

/-- The fixture session as created by `AddMagnet`. -/
def sessFix : Session := newSession "fix" "n" filesFix 0

/-- The fixture session after `SelectFile 0` (readable engine). -/
def sessFixSel : Session := ((sessFix.selectFile 0 rfFix).toOption).getD default

/-- The fixture session after `SelectFile 2` then `SelectFile 0`. -/
def sessFixSel20 : Session :=
  ((sessFixSel.selectFile 0 rfFix).toOption).getD default

theorem c7_witness : sessFixSel20.Subtitles = sessFixSel.Subtitles :=
  c7_selection_resets_subtitles sessFix sessFixSel sessFixSel20 sessFixSel 0 0
    rfFix rfFix (by rfl) (by rfl) (by rfl)

/-- C3: on a successful selection, the subtitle list is exactly the
is-subtitle candidates with readable content, split into the matched bucket
(candidate base name without extension starts with the selected file's base
name without extension, or same directory — the `isMatched` predicate)
followed by the unmatched bucket, each bucket in original file-list order
(`filter` preserves order). -/
theorem c3_matcher_classification (s s' : Session) (f : Int)
    (rf : Nat → Option Bytes) (h : s.selectFile f rf = .ok s') :
    ∃ fi : FileInfo, s.Files.get? f.toNat = some fi ∧
      s'.Subtitles =
        ((procOf rf s.Files.enum).filter
            (fun q => isMatched (stripExt (goBase fi.Path)) (goDir fi.Path) q.1)).map
          Prod.snd
        ++ ((procOf rf s.Files.enum).filter
            (fun q => !(isMatched (stripExt (goBase fi.Path)) (goDir fi.Path) q.1))).map
          Prod.snd := by
  rcases (selectFile_ok_iff s f rf s').mp h with ⟨hb, rfl⟩
  push_neg at hb
  have hbound : f.toNat < s.Files.length := by omega
  refine ⟨s.Files.get ⟨f.toNat, hbound⟩, (List.get?_eq_get hbound), ?_⟩
  have hgetD : s.Files.getD f.toNat default = s.Files.get ⟨f.toNat, hbound⟩ := by
    rw [List.getD_eq_getElem?_getD, List.getElem?_eq_getElem hbound]
    rfl
  simp only [subScan_matched, subScan_other, videoBaseOf, videoDirOf, hgetD]

theorem c3_witness :
    ∃ fi : FileInfo, sessFix.Files.get? (Int.toNat 0) = some fi ∧
      sessFixSel.Subtitles =
        ((procOf rfFix sessFix.Files.enum).filter
            (fun q => isMatched (stripExt (goBase fi.Path)) (goDir fi.Path) q.1)).map
          Prod.snd
        ++ ((procOf rfFix sessFix.Files.enum).filter
            (fun q => !(isMatched (stripExt (goBase fi.Path)) (goDir fi.Path) q.1))).map
          Prod.snd :=
  c3_matcher_classification sessFix sessFixSel 0 rfFix (by rfl)

/-- C8: when reading one subtitle candidate fails, only that candidate is
skipped: `SelectFile` still succeeds, records the selected index, and every
other readable candidate still appears in the rebuilt subtitle list. -/
theorem c8_partial_failure_skip (s : Session) (f : Int)
    (rf : Nat → Option Bytes) (j : Nat)
    (hval : 0 ≤ f ∧ f < (s.Files.length : Int))
    (hfail : rf j = none) :
    ∃ s', s.selectFile f rf = .ok s' ∧ s'.SelectedFile = f ∧
      (∀ sub ∈ s'.Subtitles, sub.Index ≠ (j : Int)) ∧
      (∀ (i : Nat) (fi : FileInfo), s.Files.get? i = some fi →
        fi.IsSubtitle = true → i ≠ j → (rf i).isSome →
        ∃ sub ∈ s'.Subtitles, sub.Index = (i : Int)) := by
  have hb : ¬(f < 0 ∨ (s.Files.length : Int) ≤ f) := by omega
  refine ⟨_, (selectFile_ok_iff s f rf _).mpr ⟨hb, rfl⟩, rfl, ?_, ?_⟩
  · intro sub hsub hidx
    rcases mem_rebuilt hsub with ⟨q, hq, he⟩
    rcases mem_procOf hq with ⟨i, _, hc⟩
    have : sub.Index = (i : Int) := by rw [← he]; exact candSub_index hc
    have hij : i = j := by
      rw [this] at hidx
      exact_mod_cast hidx
    subst hij
    have := candSub_isSome hc
    rw [hfail] at this
    cases this
  · intro i fi hget hsub hij hsome
    cases hrf : rf i with
    | none => rw [hrf] at hsome; cases hsome
    | some raw =>
      have hc : candSub rf i fi = some
          { Name := goBase fi.Path, Index := (i : Int),
            Content := mkSubContent fi.Path raw } := by
        simp [candSub, hsub, hrf]
      have henum : (i, fi) ∈ s.Files.enum :=
        List.mk_mem_enum_iff_get?.mpr hget
      have hmem := @rebuilt_mem rf (videoBaseOf s f.toNat)
        (videoDirOf s f.toNat) s.Files (prios0Of s f.toNat) _
        (procOf_mem henum hc)
      exact ⟨_, hmem, rfl⟩

theorem c8_witness :
    ∃ s', sessFix.selectFile 0 rfFail = .ok s' ∧ s'.SelectedFile = 0 ∧
      (∀ sub ∈ s'.Subtitles, sub.Index ≠ ((1 : Nat) : Int)) ∧
      (∀ (i : Nat) (fi : FileInfo), sessFix.Files.get? i = some fi →
        fi.IsSubtitle = true → i ≠ 1 → (rfFail i).isSome →
        ∃ sub ∈ s'.Subtitles, sub.Index = (i : Int)) :=
  c8_partial_failure_skip sessFix 0 rfFail 1 (by decide) (by decide)

theorem startsWithL_nil_right {α : Type} [DecidableEq α] (l : List α) :
    startsWithL l [] = true := by
  cases l <;> rfl

theorem startsWithL_append {α : Type} [DecidableEq α] (pre rest : List α) :
    startsWithL (pre ++ rest) pre = true := by
  induction pre with
  | nil => exact startsWithL_nil_right rest
  | cons a p ih => simp [startsWithL, ih]

/-- Registry reached by adding the fixture torrent and selecting file 0,
which scans two readable subtitle candidates into the subtitle list. -/
def regC2 : Registry :=
  runOps [Op.add "fix" "n" filesFix true 0, Op.select "fix" 0 rfFix 0]

/-- C2 as stated is false: in a reachable session whose subtitle list holds
only torrent-scanned entries (all indices non-negative, so no subtitle was
attached yet), the first uploaded subtitle is assigned index
-(list length + 1) = -3, not -1: the upload index counts every entry of the
current list, scanned entries included. -/
theorem c2_counterexample :
    (∀ sub ∈ ((lookupReg regC2 "fix").getD default).Subtitles, 0 ≤ sub.Index) ∧
    (regUploadSubtitle regC2 "fix" "x.vtt".toList (bstr "WEBVTT") 0).2
      = some ("x.vtt".toList, -3) ∧ (-3 : Int) ≠ -1 := by
  refine ⟨by decide, by decide, by decide⟩

/-- C2 (amended): an attached subtitle (upload or download) is assigned
index -(current subtitle-list length + 1) — the sequence starts at -1 and
decrements only counting from the entries already present, scanned ones
included; a negative index never collides with a non-negative one, and
indices stay pairwise distinct within every reachable session. -/
theorem c2_negative_index_assignment :
    (∀ (s : Session) (name : List Char) (raw : Bytes),
       (attachSubtitle s name raw).2.2 = -((s.Subtitles.length : Int) + 1) ∧
       (attachSubtitle s name raw).2.2 < 0 ∧
       (attachSubtitle s name raw).1.Subtitles.map SubtitleInfo.Index
         = s.Subtitles.map SubtitleInfo.Index
           ++ [-((s.Subtitles.length : Int) + 1)]) ∧
    (∀ (ops : List Op) (p : String × Session), p ∈ runOps ops →
       (p.2.Subtitles.map SubtitleInfo.Index).Nodup ∧
       ∀ sub ∈ p.2.Subtitles, sub.Index < 0 →
         ∀ sub2 ∈ p.2.Subtitles, 0 ≤ sub2.Index → sub.Index ≠ sub2.Index) := by
  constructor
  · intro s name raw
    refine ⟨rfl, ?_, by simp [attachSubtitle]⟩
    have h0 : (attachSubtitle s name raw).2.2
        = -((s.Subtitles.length : Int) + 1) := rfl
    have h1 : (0 : Int) ≤ (s.Subtitles.length : Int) := Int.natCast_nonneg _
    rw [h0]
    omega
  · intro ops p hp
    refine ⟨((regInv_runOps ops).2 p hp).2.1, ?_⟩
    intro sub _ hneg sub2 _ hpos
    omega

theorem c2_witness :
    ((attachSubtitle sessFixSel "y.vtt".toList (bstr "WEBVTT")).2.2
        = -((sessFixSel.Subtitles.length : Int) + 1) ∧
      (attachSubtitle sessFixSel "y.vtt".toList (bstr "WEBVTT")).2.2 < 0 ∧
      (attachSubtitle sessFixSel "y.vtt".toList (bstr "WEBVTT")).1.Subtitles.map
          SubtitleInfo.Index
        = sessFixSel.Subtitles.map SubtitleInfo.Index
          ++ [-((sessFixSel.Subtitles.length : Int) + 1)]) ∧
    ((("fix", sessFixSel) : String × Session).2.Subtitles.map
        SubtitleInfo.Index).Nodup :=
  ⟨c2_negative_index_assignment.1 sessFixSel "y.vtt".toList (bstr "WEBVTT"),
   (c2_negative_index_assignment.2
      [Op.add "fix" "n" filesFix true 0, Op.select "fix" 0 rfFix 0]
      ("fix", sessFixSel) (by decide)).1⟩

/-- Fixture for C9: a video plus an `.ass` subtitle candidate whose raw
content is plain ASS text. -/
def filesC9 : List (List Char × Int) :=
  [("a.mkv".toList, 10), ("b.ass".toList, 1)]

/-- Engine read returning ASS content for every file. -/
def rfC9 : Nat → Option Bytes := fun _ => some (bstr "[Script Info]")

/-- Registry reached by adding the C9 fixture and selecting file 0. -/
def regC9 : Registry :=
  runOps [Op.add "c9" "n" filesC9 true 0, Op.select "c9" 0 rfC9 0]

/-- C9 as stated is false: the stored `.ass` candidate keeps its raw bytes,
which do not begin with the WebVTT magic header — while every output of the
converter does — so not every stored subtitle entry is normalized to the
target caption format. -/
theorem c9_counterexample :
    (∃ sub ∈ ((lookupReg regC9 "c9").getD default).Subtitles,
       sub.Content = bstr "[Script Info]" ∧
       startsWithL sub.Content (bstr "WEBVTT") = false) ∧
    (∀ bs : Bytes, startsWithL (ConvertSRTtoVTT bs) (bstr "WEBVTT") = true) := by
  constructor
  · decide
  · intro bs
    unfold ConvertSRTtoVTT
    have h : bstr "WEBVTT\n\n" = bstr "WEBVTT" ++ [10, 10] := by decide
    rw [h, List.append_assoc]
    exact startsWithL_append _ _

/-- C9 (amended): stored subtitle content is the SRT-to-VTT conversion of
the raw bytes exactly when the source's lower-cased extension is `.srt`, and
the raw bytes unchanged otherwise — for torrent-scanned candidates, uploads
and external downloads alike. -/
theorem c9_content_conversion :
    (∀ (s s' : Session) (f : Int) (rf : Nat → Option Bytes),
       s.selectFile f rf = .ok s' →
       ∀ sub ∈ s'.Subtitles, ∃ (i : Nat) (fi : FileInfo) (raw : Bytes),
         s.Files.get? i = some fi ∧ fi.IsSubtitle = true ∧ rf i = some raw ∧
         sub.Content = (if lowerStr (goExt fi.Path) = ".srt".toList
                        then ConvertSRTtoVTT raw else raw)) ∧
    (∀ (s : Session) (name : List Char) (raw : Bytes),
       (attachSubtitle s name raw).1.Subtitles.getLast?.map SubtitleInfo.Content
         = some (if lowerStr (goExt name) = ".srt".toList
                 then ConvertSRTtoVTT raw else raw)) := by
  constructor
  · intro s s' f rf h sub hsub
    rcases (selectFile_ok_iff s f rf s').mp h with ⟨hb, rfl⟩
    rcases mem_rebuilt hsub with ⟨q, hq, he⟩
    rcases mem_procOf hq with ⟨i, henum, hc⟩
    unfold candSub at hc
    by_cases hs : q.1.IsSubtitle
    · simp only [hs, if_pos] at hc
      cases hrf : rf i with
      | none => rw [hrf] at hc; simp at hc
      | some raw =>
        rw [hrf] at hc
        simp only [Option.map_some'] at hc
        refine ⟨i, q.1, raw, List.mk_mem_enum_iff_get?.mp henum, by simp [hs],
          hrf, ?_⟩
        rw [← he, (Option.some.injEq _ _).mp hc.symm]  -- hmm
        rfl
    · simp [hs] at hc
  · intro s name raw
    simp [attachSubtitle, List.getLast?_concat]

theorem c1_witness :
    insertStep [("a", newSession "a" "n" [] 0)] "a" (newSession "a" "m" [] 1)
      = ([("a", newSession "a" "n" [] 0)], newSession "a" "n" [] 0, true) :=
  c1_single_session_per_id.2.1 [("a", newSession "a" "n" [] 0)] "a"
    (newSession "a" "m" [] 1) (newSession "a" "n" [] 0) (by decide)

theorem c9_witness :
    ∃ (i : Nat) (fi : FileInfo) (raw : Bytes),
      sessFix.Files.get? i = some fi ∧ fi.IsSubtitle = true ∧
      rfFix i = some raw ∧
      (sessFixSel.Subtitles.getD 0 default).Content
        = (if lowerStr (goExt fi.Path) = ".srt".toList
           then ConvertSRTtoVTT raw else raw) :=
  c9_content_conversion.1 sessFix sessFixSel 0 rfFix (by rfl)
    (sessFixSel.Subtitles.getD 0 default) (by decide)
